import Mathlib

/-!
Verification of the tempo-estimation engine of `madmom/features/tempo.py`.

Floating-point arrays are modelled as lists of real numbers; numpy / scipy
primitives (`np.convolve` with mode `'same'`, `np.hamming`, fancy indexing,
`scipy.signal.argrelmax` with mode `'wrap'`, the Python 2 builtin `round`
rounding half away from zero and `np.round` rounding half to even) are
embedded faithfully, including the exceptions they raise, which are collected
in the `PyErr` type.
-/

/-- Errors raised by the Python code paths that the model covers. -/
inductive PyErr : Type
  /-- `ValueError('can not smooth signal with %s')` in `smooth_signal`. -/
  | invalidKernel : PyErr
  /-- `ValueError` raised by `np.convolve` when an input array is empty. -/
  | emptyConvolve : PyErr
  /-- `ValueError` from broadcasting two arrays of incompatible lengths. -/
  | shapeMismatch : PyErr
  /-- `ValueError` from `bool()` of a numpy array of length other than one. -/
  | ambiguousTruth : PyErr
  /-- `IndexError` from indexing a numpy array out of range. -/
  | indexError : PyErr
deriving DecidableEq, Repr

/-- The function `np.round` (used in the grouping step): round half to even. -/
noncomputable def npRound (x : ℝ) : ℤ :=
  if Int.fract x = 1 / 2 then (if Even ⌊x⌋ then ⌊x⌋ else ⌊x⌋ + 1) else round x

/-- The builtin `round` of Python 2 (the language of this repository, see the
`print` statements and `itertools.izip` in `bin/PianoTranscriptor.py`): round
half AWAY from zero, so `round 0.5 = 1`. -/
noncomputable def py2Round (x : ℝ) : ℤ :=
  if 0 ≤ x then ⌊x + 1 / 2⌋ else ⌈x - 1 / 2⌉

/-- Python `range(a, b)` over integers, as a list. -/
def rangeZ (a b : ℤ) : List ℤ :=
  (List.range (b - a).toNat).map (fun (i : ℕ) => a + (i : ℤ))

/-- Python slice `a[t:]`, with Python's negative-index semantics. -/
def pySliceFrom (a : List ℝ) (t : ℤ) : List ℝ :=
  if 0 ≤ t then a.drop t.toNat else a.drop ((a.length + t).toNat)

/-- Python slice `a[0:-t]` (note `a[0:-0]` is `a[0:0]`, the empty list). -/
def pySliceToNeg (a : List ℝ) (t : ℤ) : List ℝ :=
  if 0 < t then a.take (a.length - t.toNat)
  else if t = 0 then []
  else a.take (-t).toNat

/-- Element-wise product of two 1-D numpy arrays, with numpy broadcasting of a
length-one operand; incompatible lengths raise a `ValueError`. -/
def npMul (x y : List ℝ) : Except PyErr (List ℝ) :=
  if x.length = y.length then .ok (List.zipWith (· * ·) x y)
  else if x.length = 1 then .ok (y.map (fun v => x.headI * v))
  else if y.length = 1 then .ok (x.map (fun v => v * y.headI))
  else .error .shapeMismatch

/-- Indexing a numpy array: out-of-range indices raise `IndexError`. -/
def npIdx {α : Type} (l : List α) (i : ℕ) : Except PyErr α :=
  if h : i < l.length then .ok (l.get ⟨i, h⟩) else .error .indexError

/-- The window `np.hamming M`: `0.54 - 0.46 cos (2 π k / (M - 1))`. -/
noncomputable def np_hamming (M : ℕ) : List ℝ :=
  if M < 1 then []
  else if M = 1 then [1]
  else (List.range M).map
    (fun (k : ℕ) => 0.54 - 0.46 * Real.cos (2 * Real.pi * (k : ℝ) / ((M - 1 : ℕ) : ℝ)))

/-- Full discrete convolution of two lists (length `M + N - 1`). -/
def convFull (a v : List ℝ) : List ℝ :=
  (List.range (a.length + v.length - 1)).map (fun k =>
    ((List.range (k + 1)).map (fun i => a.getD i 0 * v.getD (k - i) 0)).sum)

/-- The function `np.convolve a v 'same'`: the centred `max M N` entries of the
full convolution; numpy raises a `ValueError` when either input is empty. -/
def np_convolve_same (a v : List ℝ) : Except PyErr (List ℝ) :=
  if a.length = 0 ∨ v.length = 0 then .error .emptyConvolve
  else .ok (((convFull a v).drop ((min a.length v.length - 1) / 2)).take
      (max a.length v.length))

/-- The `smooth` argument of `smooth_signal`: an integer size or an array. -/
inductive SmoothArg : Type
  | int : ℤ → SmoothArg
  | arr : List ℝ → SmoothArg

/-- Python truthiness of the `smooth` argument (`if smooth:`); `bool()` of a
numpy array raises unless the array has exactly one element. -/
noncomputable def pyTruthy : SmoothArg → Except PyErr Bool
  | .int n => .ok (decide (n ≠ 0))
  | .arr k =>
    match k with
    | [x] => .ok (decide (x ≠ 0))
    | _ => .error .ambiguousTruth

/-- Model of `smooth_signal` (tempo.py lines 17-40): resolve the kernel (a
Hamming window for an integer size `> 1`, the array itself if its length is
`> 1`), raise `ValueError` if no kernel results, else convolve mode `'same'`. -/
noncomputable def smooth_signal (signal : List ℝ) (smooth : SmoothArg) :
    Except PyErr (List ℝ) :=
  let kernel : Option (List ℝ) :=
    match smooth with
    | .int n => if 1 < n then some (np_hamming n.toNat) else none
    | .arr k => if 1 < k.length then some k else none
  match kernel with
  | none => .error .invalidKernel
  | some k => np_convolve_same signal k

/-- Model of `smooth_histogram` (tempo.py lines 43-53): smooth only the bins,
keep the delays. -/
noncomputable def smooth_histogram (histogram : List ℝ × List ℤ)
    (smooth : SmoothArg) : Except PyErr (List ℝ × List ℤ) := do
  let b ← smooth_signal histogram.1 smooth
  return (b, histogram.2)

/-- One histogram bin: `np.sum (np.abs (activations (tau:) * activations (0:-tau)))`. -/
def binOf (a : List ℝ) (tau : ℤ) : Except PyErr ℝ := do
  let p ← npMul (pySliceFrom a tau) (pySliceToNeg a tau)
  return (p.map (fun v => |v|)).sum

/-- The bin-accumulation loop of `interval_histogram` (tempo.py lines 77-80). -/
def binsOf (a : List ℝ) : List ℤ → Except PyErr (List ℝ)
  | [] => .ok []
  | tau :: rest => do
    let b ← binOf a tau
    let bs ← binsOf a rest
    return (b :: bs)

/-- Model of `interval_histogram` (tempo.py lines 57-82). -/
noncomputable def interval_histogram (activations : List ℝ)
    (smooth : Option SmoothArg) (min_tau : ℤ) (max_tau : Option ℤ) :
    Except PyErr (List ℝ × List ℤ) := do
  let acts ←
    match smooth with
    | none => pure activations
    | some s => do
      let t ← pyTruthy s
      if t then smooth_signal activations s else pure activations
  let mt := max_tau.getD ((acts.length : ℤ) - min_tau)
  let taus := rangeZ min_tau mt
  let bins ← binsOf acts taus
  return (bins, taus)

/-- Model of the source's `log3`: `np.log x / np.log 3`. -/
noncomputable def log3 (x : ℝ) : ℝ := Real.log x / Real.log 3

/-- Model of `scipy.signal.argrelmax(bins, mode='wrap')[0]`: indices whose
value strictly exceeds both circular neighbours. -/
noncomputable def argrelmaxWrap (b : List ℝ) : List ℕ :=
  (List.range b.length).filter (fun i =>
    decide (b.getD ((i + 1) % b.length) 0 < b.getD i 0 ∧
      b.getD ((i + b.length - 1) % b.length) 0 < b.getD i 0))

/-- The function `np.argmax`: index of the first occurrence of the maximum. -/
def npArgmax {α : Type} [LinearOrder α] [Inhabited α] (l : List α) : ℕ :=
  (List.range l.length).foldl
    (fun best i => if l.getD best default < l.getD i default then i else best) 0

/-- The function `np.argsort`: indices that sort the list ascendingly (ties
keep their original order in this model). -/
noncomputable def npArgsort (l : List ℝ) : List ℕ :=
  List.insertionSort (fun i j => l.getD i 0 < l.getD j 0) (List.range l.length)

/-- Numpy fancy indexing `l (idxs)` for index arrays known to be in range. -/
def applyIdx (l : List ℕ) (idxs : List ℕ) : List ℕ := idxs.map (fun i => l.getD i 0)

/-- The row sums of a boolean matrix (`np.sum` along axis one): per-row counts
of `True` entries. -/
def rowCounts (c : List (List Bool)) : List ℕ := c.map (fun row => row.countP id)

/-- The weighted matrix `w (np.newaxis, :) * c`: each row of the flag matrix
multiplied element-wise with the strength vector (`True * x = x`). -/
def weightRows (w : List ℝ) (c : List (List Bool)) : List (List ℝ) :=
  c.map (fun row => List.zipWith (fun bo x => if bo then x else 0) row w)

/-- Lines 194-196 / 204-206 of tempo.py: pick the row of the weighted matrix
whose index maximises the per-row count of flagged pairs. -/
def selectWinner (w : List ℝ) (c : List (List Bool)) : List ℝ :=
  (weightRows w c).getD (npArgmax (rowCounts c)) []

/-- The flag `np.round (|x| / dev) * dev % 1 == 0` applied to a log-ratio. -/
noncomputable def flagged (dev x : ℝ) : Bool :=
  open Classical in
  decide (∃ k : ℤ, ((npRound (|x| / dev) : ℝ) * dev = (k : ℝ)))

/-- The harmonic-grouping step of `Tempo.detect` (tempo.py lines 182-210). -/
noncomputable def groupPeaks (sorted_peaks : List ℕ) (bins tempi : List ℝ)
    (dev : ℝ) : List ℕ :=
  let t := sorted_peaks.map (fun i => tempi.getD i 0)
  let w := sorted_peaks.map (fun i => bins.getD i 0)
  let c := t.map (fun ti => t.map (fun tj => tj / ti))
  let double_c := c.map (fun row => row.map (fun r => flagged dev (Real.logb 2 r)))
  let double_tempi := selectWinner w double_c
  let triple_c := c.map (fun row => row.map (fun r => flagged dev (log3 r)))
  let triple_tempi := selectWinner w triple_c
  let strengths := List.zipWith max double_tempi triple_tempi
  applyIdx sorted_peaks (npArgsort strengths).reverse

/-- Line 180 of tempo.py: `peaks (np.argsort (bins (peaks)) (::-1))`. -/
noncomputable def rankPeaks (peaks : List ℕ) (bins : List ℝ) : List ℕ :=
  applyIdx peaks (npArgsort (peaks.map (fun i => bins.getD i 0))).reverse

/-- Lines 154-163 of `Tempo.detect`: argument conversion, histogram
construction and optional histogram smoothing. -/
noncomputable def detectHistogram (activations : List ℝ) (fps act_smooth : ℝ)
    (hist_smooth : ℤ) (min_bpm max_bpm : ℝ) : Except PyErr (List ℝ × List ℤ) := do
  let act_smooth_frames := py2Round (fps * act_smooth)
  let min_tau : ℤ := ⌊60 * fps / max_bpm⌋
  let max_tau : ℤ := ⌈60 * fps / min_bpm⌉
  let histogram ← interval_histogram activations (some (.int act_smooth_frames))
      min_tau (some max_tau)
  if hist_smooth ≠ 0 then smooth_histogram histogram (.int hist_smooth)
  else pure histogram

/-- Model of `Tempo.detect` (tempo.py lines 137-216).  `NO_TEMPO` (`np.nan`)
is modelled as `none`. -/
noncomputable def detect (activations : List ℝ) (fps act_smooth : ℝ)
    (hist_smooth : ℤ) (min_bpm max_bpm grouping_dev : ℝ) :
    Except PyErr (Option ℝ × Option ℝ × ℝ) := do
  let h ← detectHistogram activations fps act_smooth hist_smooth min_bpm max_bpm
  let bins := h.1
  let tempi := h.2.map (fun (tau : ℤ) => 60 * fps / (tau : ℝ))
  let peaks := argrelmaxWrap bins
  if peaks.length = 0 then
    return (none, none, 0)
  else if peaks.length = 1 then do
    let t ← npIdx tempi (peaks.getD 0 0)
    return (some t, none, 1)
  else do
    let sorted_peaks := rankPeaks peaks bins
    let sp := if grouping_dev ≠ 0 then groupPeaks sorted_peaks bins tempi grouping_dev
      else sorted_peaks
    let t1 ← npIdx tempi (sp.getD 0 0)
    let t2 ← npIdx tempi (sp.getD 1 0)
    let b1 := bins.getD (sp.getD 0 0) 0
    let b2 := bins.getD (sp.getD 1 0) 0
    return (some t1, some t2, b1 / (b1 + b2))

/-- The length of the kernel that `smooth_signal` resolves its argument to. -/
def kernelLength : SmoothArg → ℕ
  | .int n => n.toNat
  | .arr k => k.length

/-! ### Helper lemmas -/

theorem exbind_ok {ε α β : Type} (a : α) (f : α → Except ε β) :
    (Except.ok a : Except ε α) >>= f = f a := rfl

theorem exbind_err {ε α β : Type} (e : ε) (f : α → Except ε β) :
    (Except.error e : Except ε α) >>= f = Except.error e := rfl

theorem expure {ε α : Type} (a : α) : (pure a : Except ε α) = Except.ok a := rfl

theorem floor_one_half : ⌊(1 : ℝ) / 2⌋ = 0 := by
  rw [Int.floor_eq_iff]
  norm_num

theorem py2Round_intCast (n : ℤ) : py2Round ((n : ℤ) : ℝ) = n := by
  unfold py2Round
  by_cases h : (0 : ℝ) ≤ ((n : ℤ) : ℝ)
  · rw [if_pos h, show ((n : ℤ) : ℝ) + 1 / 2 = 1 / 2 + ((n : ℤ) : ℝ) by ring,
      Int.floor_add_int, floor_one_half, zero_add]
  · rw [if_neg h, show ((n : ℤ) : ℝ) - 1 / 2 = -(1 / 2) + ((n : ℤ) : ℝ) by ring,
      Int.ceil_add_int]
    have hc : ⌈-((1 : ℝ) / 2)⌉ = 0 := by
      rw [Int.ceil_eq_iff]
      norm_num
    rw [hc, zero_add]

theorem py2Round_half : py2Round ((1 : ℝ) / 2) = 1 := by
  unfold py2Round
  rw [if_pos (by norm_num),
    show (1 : ℝ) / 2 + 1 / 2 = ((1 : ℤ) : ℝ) by norm_num]
  exact Int.floor_intCast 1

theorem np_hamming_length (M : ℕ) : (np_hamming M).length = M := by
  unfold np_hamming
  by_cases h1 : M < 1
  · rw [if_pos h1]
    simp only [List.length_nil]
    omega
  · rw [if_neg h1]
    by_cases h2 : M = 1
    · rw [if_pos h2, h2]
      rfl
    · rw [if_neg h2, List.length_map, List.length_range]

theorem np_hamming_three : np_hamming 3 = [0.08, 1, 0.08] := by
  have h1 : 2 * Real.pi / 2 = Real.pi := by ring
  have h2 : 2 * Real.pi * (2 : ℝ) / 2 = 2 * Real.pi := by ring
  norm_num [np_hamming, List.range_succ, h1, h2, Real.cos_pi, Real.cos_two_pi]

theorem np_hamming_five : np_hamming 5 = [0.08, 0.54, 1, 0.54, 0.08] := by
  have h1 : 2 * Real.pi / 4 = Real.pi / 2 := by ring
  have h2 : 2 * Real.pi * (2 : ℝ) / 4 = Real.pi := by ring
  have h3 : 2 * Real.pi * (3 : ℝ) / 4 = Real.pi + Real.pi / 2 := by ring
  have h4 : 2 * Real.pi * (4 : ℝ) / 4 = 2 * Real.pi := by ring
  norm_num [np_hamming, List.range_succ, h1, h2, h3, h4, Real.cos_pi,
    Real.cos_two_pi, Real.cos_pi_div_two, Real.cos_add, Real.sin_pi]

theorem convFull_length (a v : List ℝ) :
    (convFull a v).length = a.length + v.length - 1 := by
  simp [convFull]

theorem np_convolve_same_ok_length (a v r : List ℝ)
    (h : np_convolve_same a v = .ok r) : r.length = max a.length v.length := by
  unfold np_convolve_same at h
  by_cases he : a.length = 0 ∨ v.length = 0
  · rw [if_pos he] at h
    exact absurd h (by simp)
  · rw [if_neg he] at h
    have hr : ((convFull a v).drop ((min a.length v.length - 1) / 2)).take
        (max a.length v.length) = r := Except.ok.inj h
    push_neg at he
    obtain ⟨ha, hv⟩ := he
    have hd : (min a.length v.length - 1) / 2 ≤ min a.length v.length - 1 :=
      Nat.div_le_self _ _
    have hc : (convFull a v).length = a.length + v.length - 1 := convFull_length a v
    rw [← hr]
    simp only [List.length_take, List.length_drop, hc]
    omega

/-! ### Claims -/

/-- Claim C4, corrected: for every signal, smoothing with an integer kernel
specification ≤ 1 is NOT the identity: `smooth_signal` resolves no kernel and
raises `ValueError` (`invalidKernel`). -/
theorem C4_smooth_int_le_one_raises (signal : List ℝ) (n : ℤ) (h : n ≤ 1) :
    smooth_signal signal (SmoothArg.int n) = .error .invalidKernel := by
  have h' : ¬ (1 < n) := by omega
  simp [smooth_signal, h']

/-- Witness for C4: at the concrete input `signal = [1, 2]`, `n = 1`. -/
theorem C4_witness :
    (1 : ℤ) ≤ 1 ∧ smooth_signal ([1, 2] : List ℝ) (SmoothArg.int 1) =
      .error .invalidKernel :=
  ⟨le_rfl, C4_smooth_int_le_one_raises [1, 2] 1 le_rfl⟩

/-- Counterexample to claim C4 as stated: `smooth(signal, 0)` does not return
the signal unchanged. -/
theorem C4_cex :
    ¬ (smooth_signal ([1, 2] : List ℝ) (SmoothArg.int 0) = .ok [1, 2]) := by
  simp [smooth_signal]

/-- Claim C9, confirmed: whenever `smooth_histogram` returns a histogram, its
lags component is exactly the lags component of the input histogram. -/
theorem C9_smooth_histogram_keeps_lags (histogram : List ℝ × List ℤ)
    (smooth : SmoothArg) (r : List ℝ × List ℤ)
    (h : smooth_histogram histogram smooth = .ok r) : r.2 = histogram.2 := by
  unfold smooth_histogram at h
  cases e : smooth_signal histogram.1 smooth with
  | error err =>
    rw [e, exbind_err] at h
    exact absurd h (by simp)
  | ok b =>
    rw [e, exbind_ok] at h
    rw [expure] at h
    have : (b, histogram.2) = r := Except.ok.inj h
    rw [← this]

/-- Witness for C9 at a concrete histogram and kernel. -/
theorem C9_witness :
    smooth_histogram (([1, 2, 3] : List ℝ), ([4, 5, 6] : List ℤ))
        (SmoothArg.arr [1, 1]) = .ok ([1, 3, 5], [4, 5, 6]) ∧
      ((([1, 3, 5] : List ℝ), ([4, 5, 6] : List ℤ)).2 =
        (([1, 2, 3] : List ℝ), ([4, 5, 6] : List ℤ)).2) := by
  have he : smooth_histogram (([1, 2, 3] : List ℝ), ([4, 5, 6] : List ℤ))
      (SmoothArg.arr [1, 1]) = .ok ([1, 3, 5], [4, 5, 6]) := by
    norm_num [smooth_histogram, smooth_signal, np_convolve_same, convFull,
      List.range_succ, exbind_ok, expure]
  exact ⟨he, C9_smooth_histogram_keeps_lags _ _ _ he⟩

/-- Claim C6, corrected: the smoothed output has length
`max (length signal) (kernel length)`; this equals the input length exactly
when the kernel is not longer than the signal. -/
theorem C6_smoothed_length (signal : List ℝ) (s : SmoothArg) (r : List ℝ)
    (h : smooth_signal signal s = .ok r) :
    r.length = max signal.length (kernelLength s) := by
  unfold smooth_signal at h
  cases s with
  | int n =>
    by_cases hn : 1 < n
    · simp only [if_pos hn] at h
      have := np_convolve_same_ok_length _ _ _ h
      rw [this, np_hamming_length]
      rfl
    · simp only [if_neg hn] at h
      exact absurd h (by simp)
  | arr k =>
    by_cases hk : 1 < k.length
    · simp only [if_pos hk] at h
      have := np_convolve_same_ok_length _ _ _ h
      rw [this]
      rfl
    · simp only [if_neg hk] at h
      exact absurd h (by simp)

/-- Witness for C6: a usable explicit kernel of length 2 on a length-3 signal. -/
theorem C6_witness :
    smooth_signal ([1, 2, 3] : List ℝ) (SmoothArg.arr [1, 1]) = .ok [1, 3, 5] ∧
      ([1, 3, 5] : List ℝ).length =
        max ([1, 2, 3] : List ℝ).length (kernelLength (SmoothArg.arr [1, 1])) := by
  have he : smooth_signal ([1, 2, 3] : List ℝ) (SmoothArg.arr [1, 1]) =
      .ok [1, 3, 5] := by
    norm_num [smooth_signal, np_convolve_same, convFull, List.range_succ]
  exact ⟨he, C6_smoothed_length _ _ _ he⟩

/-- Counterexample to claim C6 as stated: a usable integer kernel of size 3 on
a length-2 signal yields a length-3 output, not a length-2 one. -/
theorem C6_cex :
    smooth_signal ([1, 2] : List ℝ) (SmoothArg.int 3) =
      .ok [0.08, 1.16, 2.08] ∧ ¬ (([0.08, 1.16, 2.08] : List ℝ).length = 2) := by
  constructor
  · have hh : np_hamming (Int.toNat 3) = [0.08, 1, 0.08] := np_hamming_three
    norm_num [smooth_signal, np_convolve_same, hh, convFull, List.range_succ]
  · simp

/-! ### Error propagation helpers -/

theorem pyTruthy_int (n : ℤ) :
    pyTruthy (SmoothArg.int n) = .ok (decide (n ≠ 0)) := rfl

theorem smooth_signal_int_nonpos (signal : List ℝ) (n : ℤ) (h : n ≤ 1) :
    smooth_signal signal (SmoothArg.int n) = .error .invalidKernel := by
  have h' : ¬ (1 < n) := by omega
  simp [smooth_signal, h']

theorem smooth_signal_nil_int (n : ℤ) (h : 1 < n) :
    smooth_signal [] (SmoothArg.int n) = .error .emptyConvolve := by
  simp [smooth_signal, h, np_convolve_same]

theorem interval_histogram_smooth_err (act : List ℝ) (s : SmoothArg) (e : PyErr)
    (mt : ℤ) (Mt : Option ℤ) (ht : pyTruthy s = .ok true)
    (he : smooth_signal act s = .error e) :
    interval_histogram act (some s) mt Mt = .error e := by
  unfold interval_histogram
  simp only [ht, exbind_ok, if_true, he, exbind_err]

theorem detectHistogram_ih_err (act : List ℝ) (fps s : ℝ) (hs : ℤ)
    (minb maxb : ℝ) (e : PyErr)
    (h : interval_histogram act (some (.int (py2Round (fps * s))))
      ⌊60 * fps / maxb⌋ (some ⌈60 * fps / minb⌉) = .error e) :
    detectHistogram act fps s hs minb maxb = .error e := by
  unfold detectHistogram
  simp only [h, exbind_err]

theorem detect_dh_err (act : List ℝ) (fps s : ℝ) (hs : ℤ) (minb maxb g : ℝ)
    (e : PyErr) (h : detectHistogram act fps s hs minb maxb = .error e) :
    detect act fps s hs minb maxb g = .error e := by
  unfold detect
  simp only [h, exbind_err]

theorem binOf_zero_of_le (a : List ℝ) (tau : ℤ) (h0 : 0 ≤ tau)
    (hl : (a.length : ℤ) ≤ tau) : binOf a tau = .ok 0 := by
  have hx : pySliceFrom a tau = [] := by
    unfold pySliceFrom
    rw [if_pos h0]
    apply List.drop_eq_nil_of_le
    omega
  have hy : pySliceToNeg a tau = [] := by
    unfold pySliceToNeg
    rcases lt_or_eq_of_le h0 with hpos | hzero
    · rw [if_pos hpos]
      have hz : a.length - tau.toNat = 0 := by omega
      rw [hz, List.take_zero]
    · rw [if_neg (by omega), if_pos hzero.symm]
  unfold binOf
  rw [hx, hy]
  simp [npMul, exbind_ok, expure]

theorem binsOf_all_zero (a : List ℝ) :
    ∀ (taus : List ℤ), (∀ τ ∈ taus, binOf a τ = .ok 0) →
      binsOf a taus = .ok (List.replicate taus.length (0 : ℝ))
  | [], _ => rfl
  | τ :: rest, h => by
    unfold binsOf
    rw [h τ (by simp), exbind_ok,
      binsOf_all_zero a rest (fun x hx => h x (by simp [hx])), exbind_ok, expure]
    simp [List.replicate_succ]

theorem rangeZ_le (a b τ : ℤ) (h : τ ∈ rangeZ a b) : a ≤ τ := by
  unfold rangeZ at h
  simp only [List.mem_map, List.mem_range] at h
  obtain ⟨i, _, hi⟩ := h
  omega

theorem getD_zero_of_all_zero (l : List ℝ) (h : ∀ x ∈ l, x = 0) (j : ℕ) :
    l.getD j 0 = 0 := by
  by_cases hj : j < l.length
  · rw [List.getD_eq_getElem l 0 hj]
    exact h _ (List.getElem_mem hj)
  · exact List.getD_eq_default l 0 (by omega)

theorem argrelmaxWrap_all_zero (l : List ℝ) (h : ∀ x ∈ l, x = 0) :
    argrelmaxWrap l = [] := by
  unfold argrelmaxWrap
  rw [List.filter_eq_nil_iff]
  intro i _
  have g : ∀ j, l.getD j 0 = 0 := getD_zero_of_all_zero l h
  simp only [g]
  simp

theorem detect_sentinel_of_high_min_tau (act : List ℝ) (fps s : ℝ) (hs : ℤ)
    (minb maxb g : ℝ) (h0 : py2Round (fps * s) = 0) (hhs : hs = 0)
    (hl : (act.length : ℤ) ≤ ⌊60 * fps / maxb⌋) :
    detect act fps s hs minb maxb g = .ok (none, none, 0) := by
  have hmt : (0 : ℤ) ≤ ⌊60 * fps / maxb⌋ := le_trans (by positivity) hl
  have hih : interval_histogram act (some (.int (py2Round (fps * s))))
      ⌊60 * fps / maxb⌋ (some ⌈60 * fps / minb⌉) =
      .ok (List.replicate (rangeZ ⌊60 * fps / maxb⌋ ⌈60 * fps / minb⌉).length (0 : ℝ),
        rangeZ ⌊60 * fps / maxb⌋ ⌈60 * fps / minb⌉) := by
    rw [h0]
    have ht0 : pyTruthy (SmoothArg.int 0) = .ok false := by
      simp [pyTruthy_int]
    unfold interval_histogram
    simp only [ht0, exbind_ok, Bool.false_eq_true, if_false, expure,
      Option.getD_some]
    rw [binsOf_all_zero act _ (fun τ hτ =>
      binOf_zero_of_le act τ (le_trans hmt (rangeZ_le _ _ _ hτ))
        (le_trans hl (rangeZ_le _ _ _ hτ))), exbind_ok]
  have hdh : detectHistogram act fps s hs minb maxb =
      .ok (List.replicate (rangeZ ⌊60 * fps / maxb⌋ ⌈60 * fps / minb⌉).length (0 : ℝ),
        rangeZ ⌊60 * fps / maxb⌋ ⌈60 * fps / minb⌉) := by
    unfold detectHistogram
    rw [hhs]
    simp only [hih, exbind_ok]
    simp [expure]
  have hz : argrelmaxWrap
      (List.replicate (rangeZ ⌊60 * fps / maxb⌋ ⌈60 * fps / minb⌉).length (0 : ℝ)) = [] := by
    apply argrelmaxWrap_all_zero
    intro x hx
    exact List.eq_of_mem_replicate hx
  unfold detect
  simp only [hdh, exbind_ok]
  simp [hz, expure]

/-- Claim C3, corrected: the engine is NOT guaranteed to fail on these
conditions.  An empty activation signal errors only because the activation
smoothing convolution rejects an empty input (so only when a usable smoothing
kernel was requested); `minLag ≥ len(activations)` is not an error at all:
every histogram bin is zero, no peak is found, and `detect` returns the
`(NO_TEMPO, NO_TEMPO, 0.0)` sentinel. -/
theorem C3_error_vs_sentinel (act : List ℝ) (fps s : ℝ) (hs : ℤ)
    (minb maxb g : ℝ) :
    (act = [] → 1 < py2Round (fps * s) →
      detect act fps s hs minb maxb g = .error .emptyConvolve) ∧
    (py2Round (fps * s) = 0 → hs = 0 → (act.length : ℤ) ≤ ⌊60 * fps / maxb⌋ →
      detect act fps s hs minb maxb g = .ok (none, none, 0)) := by
  constructor
  · intro ha hr
    subst ha
    apply detect_dh_err
    apply detectHistogram_ih_err
    apply interval_histogram_smooth_err
    · rw [pyTruthy_int]
      simp only [ne_eq, Except.ok.injEq, decide_eq_true_eq]
      omega
    · exact smooth_signal_nil_int _ hr
  · intro h0 hhs hl
    exact detect_sentinel_of_high_min_tau act fps s hs minb maxb g h0 hhs hl

/-- Witness for C3: an empty signal with a two-frame smoothing window errors,
by the first conjunct of the theorem. -/
theorem C3_witness :
    1 < py2Round ((1 : ℝ) * 2) ∧
      detect [] 1 2 0 30 60 0 = .error .emptyConvolve := by
  have h2 : py2Round ((1 : ℝ) * 2) = 2 := by
    rw [show ((1 : ℝ) * 2) = ((2 : ℤ) : ℝ) by norm_num]
    exact py2Round_intCast 2
  exact ⟨by rw [h2]; norm_num,
    (C3_error_vs_sentinel [] 1 2 0 30 60 0).1 rfl (by rw [h2]; norm_num)⟩

/-- Counterexample to claim C3 as stated: at `fps = 1`, `max_bpm = 60` the lag
lower bound is `1 ≥ len([5])`, yet `detect` returns the sentinel triple
instead of raising an error. -/
theorem C3_cex :
    ((([5] : List ℝ).length : ℤ) ≤ ⌊60 * (1 : ℝ) / 60⌋) ∧
      detect [5] 1 0 0 30 60 0 = .ok (none, none, 0) := by
  have hf : ⌊60 * (1 : ℝ) / 60⌋ = 1 := by
    rw [show (60 * (1 : ℝ) / 60) = 1 by norm_num]
    exact Int.floor_one
  constructor
  · rw [hf]
    norm_num
  · apply detect_sentinel_of_high_min_tau
    · rw [show ((1 : ℝ) * 0) = ((0 : ℤ) : ℝ) by norm_num]
      exact py2Round_intCast 0
    · rfl
    · rw [hf]
      norm_num

/-- Claim C10, confirmed: whenever `int(round(frameRate * actSmoothSeconds))`
is exactly 1 — the Python 2 builtin `round` rounds half away from zero, so
`actSmoothSeconds = 0.005` at `frameRate = 100` gives `round 0.5 = 1` — the
truthy one-frame count triggers smoothing, the integer kernel size 1 resolves
to no usable kernel, and `detect` raises the invalid-kernel `ValueError`
instead of treating the size-1 window as a no-op. -/
theorem C10_one_frame_kernel_raises (act : List ℝ) (fps s : ℝ) (hs : ℤ)
    (minb maxb g : ℝ) (h : py2Round (fps * s) = 1) :
    detect act fps s hs minb maxb g = .error .invalidKernel := by
  apply detect_dh_err
  apply detectHistogram_ih_err
  apply interval_histogram_smooth_err
  · rw [pyTruthy_int]
    simp only [ne_eq, Except.ok.injEq, decide_eq_true_eq]
    omega
  · rw [h]
    exact smooth_signal_int_nonpos act 1 le_rfl

/-- Witness for C10 at the claim's own example: `actSmoothSeconds = 0.005` at
`frameRate = 100` rounds (half away from zero) to exactly one frame and
`detect` raises `invalidKernel`. -/
theorem C10_witness :
    py2Round ((100 : ℝ) * 0.005) = 1 ∧
      detect [5] 100 0.005 5 40 240 0 = .error .invalidKernel := by
  have h : py2Round ((100 : ℝ) * 0.005) = 1 := by
    rw [show ((100 : ℝ) * 0.005) = (1 : ℝ) / 2 by norm_num]
    exact py2Round_half
  exact ⟨h, C10_one_frame_kernel_raises [5] 100 0.005 5 40 240 0 h⟩

theorem zipWith_map_range (f : ℝ → ℝ → ℝ) :
    ∀ (xs ys : List ℝ), List.zipWith f xs ys =
      (List.range (min xs.length ys.length)).map
        (fun j => f (xs.getD j 0) (ys.getD j 0))
  | [], ys => by simp
  | x :: xs, [] => by simp
  | x :: xs, y :: ys => by
    rw [List.zipWith_cons_cons, zipWith_map_range f xs ys]
    simp only [List.length_cons, Nat.succ_min_succ, List.range_succ_eq_map,
      List.map_cons, List.getD_cons_zero, List.map_map]
    congr 1

theorem getD_drop (a : List ℝ) (t j : ℕ) :
    (a.drop t).getD j 0 = a.getD (t + j) 0 := by
  simp [List.getD_eq_getElem?_getD, List.getElem?_drop]

theorem getD_take (a : List ℝ) (m j : ℕ) (h : j < m) :
    (a.take m).getD j 0 = a.getD j 0 := by
  simp [List.getD_eq_getElem?_getD, List.getElem?_take, h]

theorem binOf_formula (a : List ℝ) (τ : ℤ) (h : 1 ≤ τ) :
    binOf a τ = .ok (((List.range (a.length - τ.toNat)).map
      (fun j => |a.getD (τ.toNat + j) 0 * a.getD j 0|)).sum) := by
  have hx : pySliceFrom a τ = a.drop τ.toNat := by
    unfold pySliceFrom
    rw [if_pos (by omega)]
  have hy : pySliceToNeg a τ = a.take (a.length - τ.toNat) := by
    unfold pySliceToNeg
    rw [if_pos (by omega)]
  have hlen : (a.drop τ.toNat).length = (a.take (a.length - τ.toNat)).length := by
    simp
  unfold binOf npMul
  rw [hx, hy, if_pos hlen, exbind_ok, expure]
  congr 1
  rw [zipWith_map_range, List.map_map]
  have hmin : min (a.drop τ.toNat).length (a.take (a.length - τ.toNat)).length =
      a.length - τ.toNat := by
    simp
  rw [hmin]
  congr 1
  apply List.map_congr_left
  intro j hj
  rw [List.mem_range] at hj
  simp only [Function.comp_apply]
  rw [getD_drop, getD_take _ _ _ hj]

theorem binsOf_map (a : List ℝ) (f : ℤ → ℝ) :
    ∀ (taus : List ℤ), (∀ τ ∈ taus, binOf a τ = .ok (f τ)) →
      binsOf a taus = .ok (taus.map f)
  | [], _ => rfl
  | τ :: rest, h => by
    unfold binsOf
    rw [h τ (by simp), exbind_ok,
      binsOf_map a f rest (fun x hx => h x (by simp [hx])), exbind_ok, expure,
      List.map_cons]

/-- Claim C2, confirmed: with no pre-smoothing, `interval_histogram` computes,
for every lag `τ` in `(minLag, maxLag)` given as `range minLag maxLag`, the bin
`sum |activations(τ:) * activations(0:-τ)| = Σ_j |act (τ+j) * act j|`, pairs
`bins i` with `lags i = minLag + i`, and `maxLag` defaults to
`len activations - minLag` when unspecified. -/
theorem C2_interval_histogram_formula (act : List ℝ) (min_tau max_tau : ℤ)
    (h : 1 ≤ min_tau) :
    interval_histogram act none min_tau (some max_tau) =
      .ok ((rangeZ min_tau max_tau).map (fun τ =>
          ((List.range (act.length - τ.toNat)).map
            (fun j => |act.getD (τ.toNat + j) 0 * act.getD j 0|)).sum),
        rangeZ min_tau max_tau) ∧
    (∀ i, i < (max_tau - min_tau).toNat →
      (rangeZ min_tau max_tau).getD i 0 = min_tau + (i : ℤ)) ∧
    interval_histogram act none min_tau none =
      interval_histogram act none min_tau (some ((act.length : ℤ) - min_tau)) := by
  refine ⟨?_, ?_, ?_⟩
  · unfold interval_histogram
    simp only [expure, exbind_ok, Option.getD_some]
    rw [binsOf_map act _ _ (fun τ hτ =>
      binOf_formula act τ (le_trans h (rangeZ_le _ _ _ hτ))), exbind_ok]
  · intro i hi
    simp [rangeZ, List.getD_eq_getElem?_getD, List.getElem?_map,
      List.getElem?_range, hi]
  · rfl

/-- Witness for C2 at `act = [1, 2, 3]`, `minLag = 1`, `maxLag = 3`. -/
theorem C2_witness :
    (1 : ℤ) ≤ 1 ∧
      interval_histogram ([1, 2, 3] : List ℝ) none 1 (some 3) =
        .ok ([8, 3], [1, 2]) := by
  refine ⟨le_rfl, ?_⟩
  rw [(C2_interval_histogram_formula [1, 2, 3] 1 3 le_rfl).1]
  have hr : rangeZ 1 3 = [1, 2] := rfl
  rw [hr]
  norm_num [List.range_succ, show Int.toNat 1 = 1 from rfl,
    show Int.toNat 2 = 2 from rfl, abs_of_nonneg]

theorem argmax_fold_bound {α : Type} [LinearOrder α] [Inhabited α] (l : List α) :
    ∀ (idxs : List ℕ) (b : ℕ),
      l.getD b default ≤ l.getD (List.foldl
        (fun best i => if l.getD best default < l.getD i default then i else best)
        b idxs) default ∧
      ∀ j ∈ idxs, l.getD j default ≤ l.getD (List.foldl
        (fun best i => if l.getD best default < l.getD i default then i else best)
        b idxs) default
  | [], b => ⟨le_rfl, fun j hj => absurd hj (List.not_mem_nil j)⟩
  | i :: is, b => by
    rw [List.foldl_cons]
    obtain ⟨h1, h2⟩ := argmax_fold_bound l is
      (if l.getD b default < l.getD i default then i else b)
    have hbb : l.getD b default ≤
        l.getD (if l.getD b default < l.getD i default then i else b) default := by
      by_cases hc : l.getD b default < l.getD i default
      · rw [if_pos hc]
        exact le_of_lt hc
      · rw [if_neg hc]
    have hib : l.getD i default ≤
        l.getD (if l.getD b default < l.getD i default then i else b) default := by
      by_cases hc : l.getD b default < l.getD i default
      · rw [if_pos hc]
      · rw [if_neg hc]
        exact le_of_not_lt hc
    refine ⟨le_trans hbb h1, fun j hj => ?_⟩
    rcases List.mem_cons.mp hj with rfl | hj'
    · exact le_trans hib h1
    · exact h2 j hj'

theorem npArgmax_le {α : Type} [LinearOrder α] [Inhabited α] (l : List α)
    (j : ℕ) (hj : j < l.length) :
    l.getD j default ≤ l.getD (npArgmax l) default := by
  unfold npArgmax
  exact (argmax_fold_bound l (List.range l.length) 0).2 j (List.mem_range.mpr hj)

/-- Claim C5, corrected: the winning combination is selected by the unweighted
COUNT of flagged pairs, not by a bin-magnitude-weighted sum: `selectWinner`
returns the weighted row at index `npArgmax (rowCounts c)`, an index at which
the per-row count of flagged pairs is maximal. -/
theorem C5_winner_by_count (w : List ℝ) (c : List (List Bool)) (j : ℕ)
    (hj : j < (rowCounts c).length) :
    (rowCounts c).getD j 0 ≤ (rowCounts c).getD (npArgmax (rowCounts c)) 0 ∧
      selectWinner w c = (weightRows w c).getD (npArgmax (rowCounts c)) [] := by
  constructor
  · exact npArgmax_le (rowCounts c) j hj
  · rfl

/-- Witness for C5 at a concrete flag matrix and strength vector. -/
theorem C5_witness :
    0 < (rowCounts [[true, true], [false, true]]).length ∧
      ((rowCounts [[true, true], [false, true]]).getD 0 0 ≤
        (rowCounts [[true, true], [false, true]]).getD
          (npArgmax (rowCounts [[true, true], [false, true]])) 0 ∧
      selectWinner ([5, 7] : List ℝ) [[true, true], [false, true]] =
        (weightRows ([5, 7] : List ℝ) [[true, true], [false, true]]).getD
          (npArgmax (rowCounts [[true, true], [false, true]])) []) :=
  ⟨by decide, C5_winner_by_count [5, 7] [[true, true], [false, true]] 0 (by decide)⟩

/-- Counterexample to claim C5 as stated: with flagged-pair matrix
`[[T,F,F],[F,T,T],[F,T,T]]` and ranked strengths `[100, 10, 9]`, the code's
anchor (argmax of unweighted counts `[1, 2, 2]`) is row 1, while the
bin-magnitude-weighted sums `[100, 19, 19]` are maximal at row 0. -/
theorem C5_cex :
    npArgmax (rowCounts [[true, false, false], [false, true, true],
        [false, true, true]]) = 1 ∧
      npArgmax ((weightRows ([100, 10, 9] : List ℝ)
        [[true, false, false], [false, true, true],
          [false, true, true]]).map List.sum) = 0 ∧
      ¬ ((1 : ℕ) = 0) := by
  refine ⟨by decide, ?_, by decide⟩
  norm_num [weightRows, npArgmax, rowCounts, List.range_succ]

theorem filter_range_eq_last (n : ℕ) (p : ℕ → Bool) (hn : 1 ≤ n)
    (hlast : p (n - 1) = true) (hother : ∀ i, i < n - 1 → p i = false) :
    (List.range n).filter p = [n - 1] := by
  have h1 : (List.range (n - 1)).filter p = [] :=
    List.filter_eq_nil_iff.mpr (fun i hi => by
      rw [List.mem_range] at hi
      simp [hother i hi])
  have h : n = (n - 1) + 1 := by omega
  rw [h, List.range_succ, List.filter_append, h1]
  simp [hlast]

theorem filter_range_eq_head (n : ℕ) (p : ℕ → Bool) (hn : 1 ≤ n)
    (hhead : p 0 = true) (hother : ∀ i, 0 < i → i < n → p i = false) :
    (List.range n).filter p = [0] := by
  have h : n = (n - 1) + 1 := by omega
  rw [h, List.range_succ_eq_map, List.filter_cons]
  simp only [hhead, if_true]
  have h1 : (List.range (n - 1)).filter (p ∘ Nat.succ) = [] :=
    List.filter_eq_nil_iff.mpr (fun i hi => by
      rw [List.mem_range] at hi
      simp [hother (i + 1) (Nat.succ_pos i) (by omega)])
  rw [List.filter_map, h1]
  rfl

theorem argrelmaxWrap_mem (b : List ℝ) (i : ℕ) :
    i ∈ argrelmaxWrap b ↔ i < b.length ∧
      (b.getD ((i + 1) % b.length) 0 < b.getD i 0 ∧
        b.getD ((i + b.length - 1) % b.length) 0 < b.getD i 0) := by
  unfold argrelmaxWrap
  rw [List.mem_filter, List.mem_range]
  simp

/-- Claim C7, corrected: on a strictly monotonic histogram of length ≥ 3 the
wrap-around logic returns exactly the end holding the larger value; a single
interior global maximum is always AMONG the returned peaks, but other local
maxima can be returned alongside it (see `C7_cex`), so "returns exactly that
index" fails. -/
theorem C7_argrelmax_boundary (bins : List ℝ) (hlen : 3 ≤ bins.length) :
    (List.Chain' (· < ·) bins → argrelmaxWrap bins = [bins.length - 1]) ∧
    (List.Chain' (· > ·) bins → argrelmaxWrap bins = [0]) ∧
    (∀ i, i < bins.length →
      (∀ j, j < bins.length → j ≠ i → bins.getD j 0 < bins.getD i 0) →
      i ∈ argrelmaxWrap bins) := by
  refine ⟨?_, ?_, ?_⟩
  · intro hchain
    have hp := List.chain'_iff_pairwise.mp hchain
    have hmono : ∀ i j, i < j → j < bins.length →
        bins.getD i 0 < bins.getD j 0 := by
      intro i j hij hj
      rw [List.getD_eq_getElem bins 0 (lt_trans hij hj),
        List.getD_eq_getElem bins 0 hj]
      exact List.pairwise_iff_getElem.mp hp i j (lt_trans hij hj) hj hij
    unfold argrelmaxWrap
    apply filter_range_eq_last _ _ (by omega)
    · have h1 : (bins.length - 1 + 1) % bins.length = 0 := by
        have he : bins.length - 1 + 1 = bins.length := by omega
        rw [he, Nat.mod_self]
      have h2 : (bins.length - 1 + bins.length - 1) % bins.length =
          bins.length - 2 := by
        have he : bins.length - 1 + bins.length - 1 =
            (bins.length - 2) + bins.length := by omega
        rw [he, Nat.add_mod_right]
        exact Nat.mod_eq_of_lt (by omega)
      rw [decide_eq_true_eq, h1, h2]
      exact ⟨hmono 0 _ (by omega) (by omega), hmono _ _ (by omega) (by omega)⟩
    · intro i hi
      rw [decide_eq_false_iff_not]
      have h1 : (i + 1) % bins.length = i + 1 := Nat.mod_eq_of_lt (by omega)
      rw [h1]
      intro hcontra
      exact absurd hcontra.1 (not_lt.mpr (le_of_lt (hmono i (i + 1)
        (by omega) (by omega))))
  · intro hchain
    have hp := List.chain'_iff_pairwise.mp hchain
    have hmono : ∀ i j, i < j → j < bins.length →
        bins.getD j 0 < bins.getD i 0 := by
      intro i j hij hj
      rw [List.getD_eq_getElem bins 0 (lt_trans hij hj),
        List.getD_eq_getElem bins 0 hj]
      exact List.pairwise_iff_getElem.mp hp i j (lt_trans hij hj) hj hij
    unfold argrelmaxWrap
    apply filter_range_eq_head _ _ (by omega)
    · have h1 : (0 + 1) % bins.length = 1 := Nat.mod_eq_of_lt (by omega)
      have h2 : (0 + bins.length - 1) % bins.length = bins.length - 1 := by
        rw [Nat.mod_eq_of_lt (by omega)]
        omega
      rw [decide_eq_true_eq, h1, h2]
      exact ⟨hmono 0 1 (by omega) (by omega), hmono 0 _ (by omega) (by omega)⟩
    · intro i hpos hi
      rw [decide_eq_false_iff_not]
      have h1 : (i + bins.length - 1) % bins.length = i - 1 := by
        have he : i + bins.length - 1 = (i - 1) + bins.length := by omega
        rw [he, Nat.add_mod_right]
        exact Nat.mod_eq_of_lt (by omega)
      rw [h1]
      intro hcontra
      exact absurd hcontra.2 (not_lt.mpr (le_of_lt (hmono (i - 1) i
        (by omega) hi)))
  · intro i hi hmax
    rw [argrelmaxWrap_mem]
    refine ⟨hi, ?_, ?_⟩
    · apply hmax _ (Nat.mod_lt _ (by omega))
      rcases Nat.lt_or_ge (i + 1) bins.length with hlt | hge
      · rw [Nat.mod_eq_of_lt hlt]
        omega
      · have he : i + 1 = bins.length := by omega
        rw [he, Nat.mod_self]
        omega
    · apply hmax _ (Nat.mod_lt _ (by omega))
      rcases Nat.eq_zero_or_pos i with rfl | hpos
      · have he : (0 + bins.length - 1) % bins.length = bins.length - 1 := by
          rw [Nat.mod_eq_of_lt (by omega)]
          omega
        rw [he]
        omega
      · have he : i + bins.length - 1 = (i - 1) + bins.length := by omega
        rw [he, Nat.add_mod_right, Nat.mod_eq_of_lt (by omega)]
        omega

/-- Witness for C7: the strictly increasing histogram `[1, 2, 4]` yields
exactly the peak at the larger (right) end. -/
theorem C7_witness : argrelmaxWrap ([1, 2, 4] : List ℝ) = [2] := by
  have h := (C7_argrelmax_boundary [1, 2, 4] (by norm_num)).1
    (by norm_num [List.chain'_cons])
  simpa using h

/-- Counterexample to claim C7 as stated: `[0, 5, 0, 3, 0]` has its unique
global maximum at the interior index 1, but `argrelmax` returns `[1, 3]`, not
exactly `[1]`. -/
theorem C7_cex :
    argrelmaxWrap ([0, 5, 0, 3, 0] : List ℝ) = [1, 3] ∧
      ¬ (([1, 3] : List ℕ) = [1]) := by
  constructor
  · norm_num [argrelmaxWrap, List.range_succ]
  · simp

theorem exmap_ok {ε α β : Type} (f : α → β) (a : α) :
    (f <$> (Except.ok a : Except ε α)) = Except.ok (f a) := rfl

theorem exmap_err {ε α β : Type} (f : α → β) (e : ε) :
    (f <$> (Except.error e : Except ε α)) = Except.error e := rfl

theorem npIdx_ok {α : Type} (l : List α) (i : ℕ) (d : α) (h : i < l.length) :
    npIdx l i = .ok (l.getD i d) := by
  unfold npIdx
  rw [dif_pos h, List.getD_eq_getElem l d h]
  rfl

theorem npIdx_err {α : Type} (l : List α) (i : ℕ) (h : ¬ i < l.length) :
    npIdx l i = .error .indexError := by
  unfold npIdx
  rw [dif_neg h]

theorem argrelmaxWrap_lt (b : List ℝ) : ∀ p ∈ argrelmaxWrap b, p < b.length := by
  intro p hp
  unfold argrelmaxWrap at hp
  exact List.mem_range.mp (List.mem_of_mem_filter hp)

theorem applyIdx_lt (l : List ℕ) (idxs : List ℕ) (n : ℕ)
    (hl : ∀ x ∈ l, x < n) (hn : 0 < n) : ∀ x ∈ applyIdx l idxs, x < n := by
  intro x hx
  rcases List.mem_map.mp hx with ⟨i, _, rfl⟩
  by_cases hi : i < l.length
  · rw [List.getD_eq_getElem l 0 hi]
    exact hl _ (List.getElem_mem hi)
  · rw [List.getD_eq_default l 0 (by omega)]
    exact hn

theorem getD_lt_of_all_lt (l : List ℕ) (n k : ℕ)
    (hl : ∀ x ∈ l, x < n) (hn : 0 < n) : l.getD k 0 < n := by
  by_cases hk : k < l.length
  · rw [List.getD_eq_getElem l 0 hk]
    exact hl _ (List.getElem_mem hk)
  · rw [List.getD_eq_default l 0 (by omega)]
    exact hn

theorem rankPeaks_lt (peaks : List ℕ) (bins : List ℝ) (n : ℕ)
    (hp : ∀ x ∈ peaks, x < n) (hn : 0 < n) :
    ∀ x ∈ rankPeaks peaks bins, x < n := by
  unfold rankPeaks
  exact applyIdx_lt _ _ _ hp hn

theorem groupPeaks_lt (sp : List ℕ) (bins tempi : List ℝ) (g : ℝ) (n : ℕ)
    (hp : ∀ x ∈ sp, x < n) (hn : 0 < n) :
    ∀ x ∈ groupPeaks sp bins tempi g, x < n := by
  unfold groupPeaks
  exact applyIdx_lt _ _ _ hp hn

theorem detect_zero_peaks (act : List ℝ) (fps s : ℝ) (hs : ℤ)
    (minb maxb g : ℝ) (bins : List ℝ) (taus : List ℤ)
    (hdh : detectHistogram act fps s hs minb maxb = .ok (bins, taus))
    (hp : argrelmaxWrap bins = []) :
    detect act fps s hs minb maxb g = .ok (none, none, 0) := by
  unfold detect
  simp only [hdh, exbind_ok]
  simp [hp, expure]

theorem detect_one_peak (act : List ℝ) (fps s : ℝ) (hs : ℤ)
    (minb maxb g : ℝ) (bins : List ℝ) (taus : List ℤ) (p : ℕ)
    (hdh : detectHistogram act fps s hs minb maxb = .ok (bins, taus))
    (hlen : bins.length = taus.length)
    (hp : argrelmaxWrap bins = [p]) :
    detect act fps s hs minb maxb g =
      .ok (some ((taus.map (fun (tau : ℤ) => 60 * fps / (tau : ℝ))).getD p 0),
        none, 1) := by
  have hplt : p < (taus.map (fun (tau : ℤ) => 60 * fps / (tau : ℝ))).length := by
    rw [List.length_map, ← hlen]
    exact argrelmaxWrap_lt bins p (by rw [hp]; exact List.mem_singleton_self p)
  unfold detect
  simp only [hdh, exbind_ok]
  simp only [hp, List.length_singleton, List.getD_cons_zero]
  rw [if_neg (by omega), if_pos trivial, npIdx_ok _ _ 0 hplt, exbind_ok, expure]

theorem detect_two_peaks (act : List ℝ) (fps s : ℝ) (hs : ℤ)
    (minb maxb g : ℝ) (bins : List ℝ) (taus : List ℤ) (sp : List ℕ)
    (hdh : detectHistogram act fps s hs minb maxb = .ok (bins, taus))
    (hlen : bins.length = taus.length)
    (hp2 : 2 ≤ (argrelmaxWrap bins).length)
    (hsp : sp = if g ≠ 0 then
        groupPeaks (rankPeaks (argrelmaxWrap bins) bins) bins
          (taus.map (fun (tau : ℤ) => 60 * fps / (tau : ℝ))) g
      else rankPeaks (argrelmaxWrap bins) bins) :
    detect act fps s hs minb maxb g =
      .ok (some ((taus.map (fun (tau : ℤ) => 60 * fps / (tau : ℝ))).getD
          (sp.getD 0 0) 0),
        some ((taus.map (fun (tau : ℤ) => 60 * fps / (tau : ℝ))).getD
          (sp.getD 1 0) 0),
        bins.getD (sp.getD 0 0) 0 /
          (bins.getD (sp.getD 0 0) 0 + bins.getD (sp.getD 1 0) 0)) := by
  have hn : 0 < bins.length := by
    rcases hh : argrelmaxWrap bins with _ | ⟨p, rest⟩
    · rw [hh] at hp2
      simp at hp2
    · exact lt_of_le_of_lt (Nat.zero_le p)
        (argrelmaxWrap_lt bins p (by rw [hh]; exact List.mem_cons_self p rest))
  have hsp_lt : ∀ x ∈ sp, x < bins.length := by
    rw [hsp]
    by_cases hg : g ≠ 0
    · rw [if_pos hg]
      exact groupPeaks_lt _ _ _ _ _
        (rankPeaks_lt _ _ _ (argrelmaxWrap_lt bins) hn) hn
    · rw [if_neg hg]
      exact rankPeaks_lt _ _ _ (argrelmaxWrap_lt bins) hn
  have h0 : sp.getD 0 0 <
      (taus.map (fun (tau : ℤ) => 60 * fps / (tau : ℝ))).length := by
    rw [List.length_map, ← hlen]
    exact getD_lt_of_all_lt sp _ 0 hsp_lt hn
  have h1 : sp.getD 1 0 <
      (taus.map (fun (tau : ℤ) => 60 * fps / (tau : ℝ))).length := by
    rw [List.length_map, ← hlen]
    exact getD_lt_of_all_lt sp _ 1 hsp_lt hn
  unfold detect
  simp only [hdh, exbind_ok]
  rw [if_neg (by omega), if_neg (by omega), ← hsp,
    npIdx_ok _ _ 0 h0, exbind_ok, npIdx_ok _ _ 0 h1, exbind_ok, expure]

/-- Claim C1, corrected: provided the histogram pipeline raises no error and
the (smoothed) histogram has exactly as many bins as lags — so that every peak
index is a valid index into `tempi` — `detect` branches on the peak count as
claimed: no peak gives `(NO_TEMPO, NO_TEMPO, 0)`, one peak gives
`(tempo, NO_TEMPO, 1)`, and two or more peaks give the top-2 ranked tempi with
strength `bins top1 / (bins top1 + bins top2)`.  Without the length proviso
the claim fails: histogram smoothing can lengthen `bins` beyond the lag count
and the peak index then raises `IndexError` (see `C1_cex`). -/
theorem C1_detect_branches (act : List ℝ) (fps s : ℝ) (hs : ℤ)
    (minb maxb g : ℝ) (bins : List ℝ) (taus : List ℤ)
    (hdh : detectHistogram act fps s hs minb maxb = .ok (bins, taus))
    (hlen : bins.length = taus.length) :
    (argrelmaxWrap bins = [] →
      detect act fps s hs minb maxb g = .ok (none, none, 0)) ∧
    (∀ p, argrelmaxWrap bins = [p] →
      detect act fps s hs minb maxb g =
        .ok (some ((taus.map (fun (tau : ℤ) => 60 * fps / (tau : ℝ))).getD p 0),
          none, 1)) ∧
    (∀ sp, 2 ≤ (argrelmaxWrap bins).length →
      sp = (if g ≠ 0 then
          groupPeaks (rankPeaks (argrelmaxWrap bins) bins) bins
            (taus.map (fun (tau : ℤ) => 60 * fps / (tau : ℝ))) g
        else rankPeaks (argrelmaxWrap bins) bins) →
      detect act fps s hs minb maxb g =
        .ok (some ((taus.map (fun (tau : ℤ) => 60 * fps / (tau : ℝ))).getD
            (sp.getD 0 0) 0),
          some ((taus.map (fun (tau : ℤ) => 60 * fps / (tau : ℝ))).getD
            (sp.getD 1 0) 0),
          bins.getD (sp.getD 0 0) 0 /
            (bins.getD (sp.getD 0 0) 0 + bins.getD (sp.getD 1 0) 0))) :=
  ⟨fun hp => detect_zero_peaks act fps s hs minb maxb g bins taus hdh hp,
   fun p hp => detect_one_peak act fps s hs minb maxb g bins taus p hdh hlen hp,
   fun sp hp2 hsp =>
     detect_two_peaks act fps s hs minb maxb g bins taus sp hdh hlen hp2 hsp⟩

/-- Claim C8, confirmed: when `grouping_dev = 0` the grouping step is skipped
entirely, and with at least two peaks the returned pair and strength come from
the plain descending-by-bin-magnitude ranking `rankPeaks`. -/
theorem C8_grouping_disabled (act : List ℝ) (fps s : ℝ) (hs : ℤ)
    (minb maxb : ℝ) (bins : List ℝ) (taus : List ℤ)
    (hdh : detectHistogram act fps s hs minb maxb = .ok (bins, taus))
    (hlen : bins.length = taus.length)
    (hp2 : 2 ≤ (argrelmaxWrap bins).length) :
    detect act fps s hs minb maxb 0 =
      .ok (some ((taus.map (fun (tau : ℤ) => 60 * fps / (tau : ℝ))).getD
          ((rankPeaks (argrelmaxWrap bins) bins).getD 0 0) 0),
        some ((taus.map (fun (tau : ℤ) => 60 * fps / (tau : ℝ))).getD
          ((rankPeaks (argrelmaxWrap bins) bins).getD 1 0) 0),
        bins.getD ((rankPeaks (argrelmaxWrap bins) bins).getD 0 0) 0 /
          (bins.getD ((rankPeaks (argrelmaxWrap bins) bins).getD 0 0) 0 +
            bins.getD ((rankPeaks (argrelmaxWrap bins) bins).getD 1 0) 0)) :=
  detect_two_peaks act fps s hs minb maxb 0 bins taus
    (rankPeaks (argrelmaxWrap bins) bins) hdh hlen hp2 (by simp)

theorem smooth_signal_int_pos (signal : List ℝ) (n : ℤ) (h : 1 < n) :
    smooth_signal signal (SmoothArg.int n) =
      np_convolve_same signal (np_hamming n.toNat) := by
  simp [smooth_signal, h]

theorem interval_histogram_int_zero (act : List ℝ) (mt Mt : ℤ) (bs : List ℝ)
    (hb : binsOf act (rangeZ mt Mt) = .ok bs) :
    interval_histogram act (some (.int 0)) mt (some Mt) =
      .ok (bs, rangeZ mt Mt) := by
  have ht0 : pyTruthy (SmoothArg.int 0) = .ok false := by
    simp [pyTruthy_int]
  unfold interval_histogram
  simp only [ht0, exbind_ok, Bool.false_eq_true, if_false, expure,
    Option.getD_some, hb]

theorem dh_nosmooth (act : List ℝ) (fps s : ℝ) (minb maxb : ℝ) (bs : List ℝ)
    (hr : py2Round (fps * s) = 0)
    (hb : binsOf act (rangeZ ⌊60 * fps / maxb⌋ ⌈60 * fps / minb⌉) = .ok bs) :
    detectHistogram act fps s 0 minb maxb =
      .ok (bs, rangeZ ⌊60 * fps / maxb⌋ ⌈60 * fps / minb⌉) := by
  unfold detectHistogram
  rw [hr]
  simp only [interval_histogram_int_zero act _ _ bs hb, exbind_ok]
  simp [expure]

/-- Witness for C1: a flat two-frame activation yields no peaks and the
sentinel triple, by the first branch of the theorem. -/
theorem C1_witness :
    detectHistogram ([0, 0] : List ℝ) 1 0 0 30 60 = .ok ([0], [1]) ∧
      detect ([0, 0] : List ℝ) 1 0 0 30 60 0 = .ok (none, none, 0) := by
  have hr : py2Round ((1 : ℝ) * 0) = 0 := by
    rw [show ((1 : ℝ) * 0) = ((0 : ℤ) : ℝ) by norm_num]
    exact py2Round_intCast 0
  have hf : (⌊60 * (1 : ℝ) / 60⌋ : ℤ) = 1 := by
    rw [show (60 * (1 : ℝ) / 60) = 1 by norm_num]
    exact Int.floor_one
  have hc : (⌈60 * (1 : ℝ) / 30⌉ : ℤ) = 2 := by
    rw [show (60 * (1 : ℝ) / 30) = ((2 : ℤ) : ℝ) by norm_num]
    exact Int.ceil_intCast 2
  have hb : binsOf ([0, 0] : List ℝ)
      (rangeZ ⌊60 * (1 : ℝ) / 60⌋ ⌈60 * (1 : ℝ) / 30⌉) = .ok [0] := by
    rw [hf, hc, show rangeZ 1 2 = [1] from rfl]
    norm_num [binsOf, binOf, pySliceFrom, pySliceToNeg, npMul, exbind_ok,
      expure, show Int.toNat 1 = 1 from rfl]
  have hdh := dh_nosmooth ([0, 0] : List ℝ) 1 0 30 60 [0] hr hb
  rw [hf, hc, show rangeZ 1 2 = [1] from rfl] at hdh
  have hz : argrelmaxWrap ([0] : List ℝ) = [] := by
    norm_num [argrelmaxWrap, List.range_succ]
  exact ⟨hdh, (C1_detect_branches [0, 0] 1 0 0 30 60 0 [0] [1] hdh rfl).1 hz⟩

/-- Counterexample to claim C1 as stated: `act = [1, 0, 1]` at `fps = 1` with
`min_bpm = 25`, `max_bpm = 60` gives two lags but five smoothed bins; exactly
one peak is detected (at index 3), yet `detect` raises `IndexError` instead of
returning `(tempo, NO_TEMPO, 1.0)`. -/
theorem C1_cex :
    argrelmaxWrap ([0, 0.08, 0.54, 1, 0.54] : List ℝ) = [3] ∧
      detect ([1, 0, 1] : List ℝ) 1 0 5 25 60 0 = .error .indexError := by
  have hr : py2Round ((1 : ℝ) * 0) = 0 := by
    rw [show ((1 : ℝ) * 0) = ((0 : ℤ) : ℝ) by norm_num]
    exact py2Round_intCast 0
  have hf : (⌊60 * (1 : ℝ) / 60⌋ : ℤ) = 1 := by
    rw [show (60 * (1 : ℝ) / 60) = 1 by norm_num]
    exact Int.floor_one
  have hc : (⌈60 * (1 : ℝ) / 25⌉ : ℤ) = 3 := by
    rw [Int.ceil_eq_iff]
    constructor <;> norm_num
  have hb : binsOf ([1, 0, 1] : List ℝ) (rangeZ 1 3) = .ok [0, 1] := by
    rw [show rangeZ 1 3 = [1, 2] from rfl]
    norm_num [binsOf, binOf, pySliceFrom, pySliceToNeg, npMul, exbind_ok,
      expure, show Int.toNat 1 = 1 from rfl, show Int.toNat 2 = 2 from rfl]
  have hih := interval_histogram_int_zero ([1, 0, 1] : List ℝ) 1 3 [0, 1] hb
  rw [show rangeZ 1 3 = [1, 2] from rfl] at hih
  have hss : smooth_signal ([0, 1] : List ℝ) (SmoothArg.int 5) =
      .ok [0, 0.08, 0.54, 1, 0.54] := by
    rw [smooth_signal_int_pos _ 5 (by norm_num), show Int.toNat 5 = 5 from rfl,
      np_hamming_five]
    norm_num [np_convolve_same, convFull, List.range_succ]
  have hsm : smooth_histogram (([0, 1] : List ℝ), ([1, 2] : List ℤ))
      (SmoothArg.int 5) = .ok ([0, 0.08, 0.54, 1, 0.54], [1, 2]) := by
    unfold smooth_histogram
    simp only [hss, exbind_ok, expure]
  have hdh : detectHistogram ([1, 0, 1] : List ℝ) 1 0 5 25 60 =
      .ok ([0, 0.08, 0.54, 1, 0.54], [1, 2]) := by
    unfold detectHistogram
    rw [hr, hf, hc]
    simp only [hih, exbind_ok]
    rw [if_pos (by norm_num : (5 : ℤ) ≠ 0)]
    exact hsm
  have hz : argrelmaxWrap ([0, 0.08, 0.54, 1, 0.54] : List ℝ) = [3] := by
    norm_num [argrelmaxWrap, List.range_succ]
  refine ⟨hz, ?_⟩
  unfold detect
  simp only [hdh, exbind_ok]
  simp only [hz, List.length_singleton, List.getD_cons_zero]
  rw [if_neg (by omega), if_pos trivial]
  rw [npIdx_err _ _ (by simp), exbind_err]

/-- Witness for C8: the periodic activation `[1, 0, 1, 0, 1]` has peaks at
lags 2 and 4 with bin heights 2 and 1; with grouping disabled the result is
`(30 BPM, 15 BPM, 2/3)` straight from the magnitude ranking. -/
theorem C8_witness :
    detect ([1, 0, 1, 0, 1] : List ℝ) 1 0 0 12 60 0 =
      .ok (some 30, some 15, 2 / 3) := by
  have hr : py2Round ((1 : ℝ) * 0) = 0 := by
    rw [show ((1 : ℝ) * 0) = ((0 : ℤ) : ℝ) by norm_num]
    exact py2Round_intCast 0
  have hf : (⌊60 * (1 : ℝ) / 60⌋ : ℤ) = 1 := by
    rw [show (60 * (1 : ℝ) / 60) = 1 by norm_num]
    exact Int.floor_one
  have hc : (⌈60 * (1 : ℝ) / 12⌉ : ℤ) = 5 := by
    rw [show (60 * (1 : ℝ) / 12) = ((5 : ℤ) : ℝ) by norm_num]
    exact Int.ceil_intCast 5
  have hb : binsOf ([1, 0, 1, 0, 1] : List ℝ)
      (rangeZ ⌊60 * (1 : ℝ) / 60⌋ ⌈60 * (1 : ℝ) / 12⌉) = .ok [0, 2, 0, 1] := by
    rw [hf, hc, show rangeZ 1 5 = [1, 2, 3, 4] from rfl]
    norm_num [binsOf, binOf, pySliceFrom, pySliceToNeg, npMul, exbind_ok,
      expure, show Int.toNat 1 = 1 from rfl, show Int.toNat 2 = 2 from rfl,
      show Int.toNat 3 = 3 from rfl, show Int.toNat 4 = 4 from rfl]
  have hdh := dh_nosmooth ([1, 0, 1, 0, 1] : List ℝ) 1 0 12 60 [0, 2, 0, 1] hr hb
  rw [hf, hc, show rangeZ 1 5 = [1, 2, 3, 4] from rfl] at hdh
  have hp2 : argrelmaxWrap ([0, 2, 0, 1] : List ℝ) = [1, 3] := by
    norm_num [argrelmaxWrap, List.range_succ]
  have h := C8_grouping_disabled ([1, 0, 1, 0, 1] : List ℝ) 1 0 0 12 60
    [0, 2, 0, 1] [1, 2, 3, 4] hdh rfl (by rw [hp2]; norm_num)
  rw [h, hp2]
  have hrank : rankPeaks [1, 3] ([0, 2, 0, 1] : List ℝ) = [1, 3] := by
    norm_num [rankPeaks, applyIdx, npArgsort, List.insertionSort,
      List.orderedInsert, List.range_succ]
  rw [hrank]
  norm_num
